import Mathlib

/-!
Verification development for the generic-join (GJ) query engine of an
e-graph rewrite system.  The definitions below are a shallow embedding of
`src/gj.rs` (trie building, query compilation, the instruction executor,
and the seminaive driver) together with the primitive glue in
`src/sort/i64.rs` and `src/sort/fn.rs`.  Machine integers are modelled as
`Nat`/`Int` with explicit wrap-around where it matters; fallible paths
return `Option`/`Except`.
-/

set_option maxRecDepth 10000

namespace GJ

/-- Interned names (`Symbol` in the source) are modelled as strings. -/
abbrev Sym := String

/-- Source `Value`: opaque record with a sort `tag` and a 64-bit payload `bits`
(the payload is a `Nat`; operations that care about width reduce mod 2^64). -/
structure Value where
  tag : Sym
  bits : Nat
deriving DecidableEq, Repr

/-- Source `Value::fake()`: the sentinel used to initialise tuple slots. -/
def fakeValue : Value := ⟨"fake", 0⟩

/-- An `AtomTerm` is an argument of an atom, either a variable or a literal value. -/
inductive AtomTerm where
  | var (s : Sym)
  | val (v : Value)
deriving DecidableEq, Repr

/-- An `Atom { head, args }`: one relational atom of a query. -/
structure Atom where
  head : Sym
  args : List AtomTerm

/-- A primitive: its `apply` is the only part the join ever calls
(`prim.apply(&values)` in `Context::eval`). -/
structure Primitive where
  apply : List Value → Option Value

/-- A primitive filter/assignment atom; by convention the last argument is
the output. -/
structure PrimAtom where
  head : Primitive
  args : List AtomTerm

/-- A `Query { atoms, filters }`. -/
structure Query where
  atoms : List Atom
  filters : List PrimAtom

/-- Modelled from the spec: `Atom::vars()` (defined in the type-checker
module, which is outside the embedded sources) yields the variable symbol
of each variable argument, one per occurrence, in argument order. -/
def Atom.vars (a : Atom) : List Sym :=
  a.args.filterMap fun t => match t with | .var s => some s | .val _ => none

/-- Modelled from the spec: `PrimitiveAtom::vars()` yields the variables
appearing among a primitive's arguments. -/
def PrimAtom.vars (p : PrimAtom) : List Sym :=
  p.args.filterMap fun t => match t with | .var s => some s | .val _ => none

/-- The e-graph as the core consumes it: for each relation symbol, the list
of (canonicalized row, timestamp) pairs.  Only the iteration interface and
the size estimator are used by the engine. -/
structure EGraph where
  functions : List (Sym × List (List Value × Nat))

/-- A half-open timestamp range `lo..hi`. -/
abbrev TsRange := Nat × Nat

/-- The value `u32::MAX`, the "infinity" timestamp. -/
def UMAX : Nat := 4294967295

/-- Modelled from the spec: `EGraph::for_each_canonicalized(sym, range, f)`
iterates the rows of relation `sym` whose timestamp lies in the half-open
`range`, in table order. -/
def EGraph.rowsInRange (g : EGraph) (sym : Sym) (r : TsRange) : List (List Value) :=
  (((g.functions.lookup sym).getD []).filter
    (fun p => decide (r.1 ≤ p.2) && decide (p.2 < r.2))).map (·.1)

/-- Modelled from the spec: `Function::get_size(range)` is the number of
rows whose timestamp lies in the range (a relation that is absent behaves
as an empty one). -/
def EGraph.getSize (g : EGraph) (sym : Sym) (r : TsRange) : Nat :=
  (g.rowsInRange sym r).length

/-- The trie: an arena node is a map `Value → Trie`, modelled as an
association list in insertion order (mirroring the hash map's key set; the
engine only ever inserts each key once per node). -/
inductive Trie where
  | mk (children : List (Value × Trie))

namespace Trie

def children : Trie → List (Value × Trie)
  | .mk cs => cs

/-- The shared empty sentinel. -/
def empty : Trie := .mk []

/-- Source `Trie::len`: number of immediate children. -/
def len (t : Trie) : Nat := t.children.length

/-- Child lookup (`HashMap::get`) on a node's child map. -/
def lookup (t : Trie) (v : Value) : Option Trie :=
  t.children.lookup v

/-- The keys of a node's child map. -/
def keys (t : Trie) : List Value := t.children.map (·.1)

/-- Replace the (first) binding of `k` in an association list. -/
def replaceChild (cs : List (Value × Trie)) (k : Value) (c : Trie) : List (Value × Trie) :=
  match cs with
  | [] => []
  | (k', c') :: rest =>
      if k' = k then (k', c) :: rest else (k', c') :: replaceChild rest k c

/-- Source `Trie::insert(bump, shuffle, tuple)`: walk the shuffle, descending into
(or creating) the child keyed by `tuple[i]` at each step. -/
def insertShuffle (tup : List Value) : List Nat → Trie → Trie
  | [], t => t
  | i :: rest, .mk cs =>
      let k := tup.getD i fakeValue
      match cs.lookup k with
      | some child => .mk (replaceChild cs k (insertShuffle tup rest child))
      | none => .mk (cs ++ [(k, insertShuffle tup rest Trie.empty)])

end Trie

/-- Column constraints collected for one atom in `Context::new`. -/
inductive Constraint where
  | eq (i j : Nat)
  | const (i : Nat) (v : Value)
deriving DecidableEq, Repr

/-- The per-constraint test from `Context::build_trie`. -/
def constraintOk (tup : List Value) : Constraint → Bool
  | .eq i j => tup.getD i fakeValue = tup.getD j fakeValue
  | .const i v => tup.getD i fakeValue = v

/-- A `TrieRequest { sym, projection, constraints, timestamp_range }`. -/
structure TrieRequest where
  sym : Sym
  projection : List Nat
  constraints : List Constraint
  range : TsRange

/-- Source `Context::build_trie`: iterate the relation's rows in the timestamp
range; with an empty constraint set insert every row, otherwise run the
constraint loop exactly as the source does — the row is inserted inside
the loop for each constraint it satisfies.  Returns `none` when the
resulting trie has no children. -/
def buildTrie (g : EGraph) (req : TrieRequest) : Option Trie :=
  let rows := g.rowsInRange req.sym req.range
  let t :=
    if req.constraints.isEmpty then
      rows.foldl (fun tr row => Trie.insertShuffle row req.projection tr) Trie.empty
    else
      rows.foldl
        (fun tr row =>
          req.constraints.foldl
            (fun tr c =>
              if constraintOk row c then Trie.insertShuffle row req.projection tr else tr)
            tr)
        Trie.empty
  if t.children.isEmpty then none else some t

/-! ## Query compilation (`compile_gj_query` phase A and `compile_program`) -/

/-- Insert a symbol into an ordered map's key list on first sight. -/
def listInsertVar (acc : List Sym) (v : Sym) : List Sym :=
  if v ∈ acc then acc else acc ++ [v]

/-- Phase A of compilation (`compile_gj_query`): the tuple layout — every
variable of the atoms in first-appearance order, then every filter
variable not yet seen. -/
def Query.layout (q : Query) : List Sym :=
  let l1 := q.atoms.foldl (fun acc a => a.vars.foldl listInsertVar acc) []
  q.filters.foldl (fun acc p => p.vars.foldl listInsertVar acc) l1

/-- The update `vars.entry(v).or_default().occurences.push(i)` on an insertion-ordered
association list. -/
def pushOcc (v : Sym) (i : Nat) : List (Sym × List Nat) → List (Sym × List Nat)
  | [] => [(v, [i])]
  | (v', occ) :: rest =>
      if v' = v then (v', occ ++ [i]) :: rest else (v', occ) :: pushOcc v i rest

/-- The `VarInfo2` occurrence map of `compile_program`: one entry per atom
variable, in first-appearance order, recording the atom indices of its
occurrences. -/
def gatherVars2 (atoms : List Atom) : List (Sym × List Nat) :=
  atoms.enum.foldl (fun acc p => p.2.vars.foldl (fun acc v => pushOcc v p.1 acc) acc) []

/-- The `size_guess` of a variable: the minimum relation size over the variable's occurrences. -/
def sizeGuessOf (sizes : List Nat) (occ : List Nat) : Nat :=
  ((occ.map (fun i => sizes.getD i 0)).min?).getD 0

/-- The comparator of `compile_program`'s `sort_by`: more occurrences
first, ties broken by smaller size guess. -/
def varLt (a b : Sym × List Nat × Nat) : Bool :=
  if a.2.1.length ≠ b.2.1.length then b.2.1.length < a.2.1.length
  else a.2.2 < b.2.2

/-- Insert into a sorted list, after every element strictly smaller:
together with `insertionSort` this is the stable sort the source's
`sort_by` performs. -/
def insertSorted {α : Type} (lt : α → α → Bool) (x : α) : List α → List α
  | [] => [x]
  | y :: ys => if lt y x then y :: insertSorted lt x ys else x :: y :: ys

/-- Stable insertion sort. -/
def insertionSort {α : Type} (lt : α → α → Bool) : List α → List α
  | [] => []
  | x :: xs => insertSorted lt x (insertionSort lt xs)

/-- The executor's instruction set. -/
inductive Instr where
  | intersect (idx : Nat) (trieIndices : List Nat)
  | call (prim : Primitive) (args : List AtomTerm) (check : Bool)

/-- The failures compilation can raise.  `cyclicPrimitives` models the
`panic!("cycle")` of the filter-scheduling loop; `emptyPrimArgs` models the
`assert!(!p.args.is_empty())` hit while scanning for a schedulable filter. -/
inductive CompileErr where
  | cyclicPrimitives
  | emptyPrimArgs
deriving DecidableEq, Repr

/-- A filter is schedulable when each of its non-output arguments is a
literal or an already-bound variable. -/
def schedulable (bound : List Sym) (p : PrimAtom) : Bool :=
  p.args.dropLast.all fun a =>
    match a with
    | .var v => bound.contains v
    | .val _ => true

/-- The search `extra.iter().position(...)` in the scheduling loop, returning the
first schedulable filter together with the remaining filters in order.
The argument-nonempty assertion fires on every filter examined before a
schedulable one is found, exactly as in the source. -/
def pickFirst (bound : List Sym) : List PrimAtom → Except CompileErr (Option (PrimAtom × List PrimAtom))
  | [] => .ok none
  | p :: ps =>
      if p.args.isEmpty then .error .emptyPrimArgs
      else if schedulable bound p then .ok (some (p, ps))
      else
        match pickFirst bound ps with
        | .error e => .error e
        | .ok none => .ok none
        | .ok (some (q, rest)) => .ok (some (q, p :: rest))

/-- The `check` flag and updated variable map for a scheduled filter: a
literal or already-bound output is checked; a fresh output variable is
added to the map and assigned. -/
def callCheckBound (bound : List Sym) (p : PrimAtom) : Bool × List Sym :=
  match p.args.getLast? with
  | some (.var v) => if bound.contains v then (true, bound) else (false, bound ++ [v])
  | _ => (true, bound)

/-- The filter-scheduling loop.  Each iteration removes one filter, so fuel
`extra.length` (supplied by `schedule`) always suffices; the fuel-exhausted
branch with filters remaining is unreachable from `schedule`. -/
def scheduleGo : Nat → List Sym → List PrimAtom → List Instr →
    Except CompileErr (List Instr × List Sym)
  | 0, bound, extra, acc => if extra.isEmpty then .ok (acc, bound) else .error .cyclicPrimitives
  | fuel + 1, bound, extra, acc =>
      if extra.isEmpty then .ok (acc, bound)
      else
        match pickFirst bound extra with
        | .error e => .error e
        | .ok none => .error .cyclicPrimitives
        | .ok (some (p, rest)) =>
            let cb := callCheckBound bound p
            scheduleGo fuel cb.2 rest (acc ++ [.call p.head p.args cb.1])

/-- Schedule all primitive filters after the intersections. -/
def schedule (bound : List Sym) (extra : List PrimAtom) (acc : List Instr) :
    Except CompileErr (List Instr × List Sym) :=
  scheduleGo extra.length bound extra acc

/-- The occurrence map with size guesses attached, stable-sorted by the
elimination-order heuristic (phase B of `compile_program` before filter
scheduling). -/
def phaseBSorted (g : EGraph) (q : Query) (ranges : List TsRange) :
    List (Sym × List Nat × Nat) :=
  let sizes := List.zipWith (fun (a : Atom) r => g.getSize a.head r) q.atoms ranges
  insertionSort varLt ((gatherVars2 q.atoms).map (fun p => (p.1, p.2, sizeGuessOf sizes p.2)))

/-- Source `compile_program`: build the occurrence map, attach size guesses,
stable-sort by the elimination-order heuristic, emit one `intersect` per
variable, then schedule the filters.  Returns the program and the
elimination-order variable list. -/
def compileProgram (g : EGraph) (q : Query) (layout : List Sym) (ranges : List TsRange) :
    Except CompileErr (List Instr × List Sym) :=
  let sorted := phaseBSorted g q ranges
  let intersects := sorted.map (fun p => Instr.intersect (layout.findIdx (· == p.1)) p.2.1)
  schedule (sorted.map (·.1)) q.filters intersects

/-! ## `Context::new`: constraints, projections, trie building -/

/-- The constraint set `Context::new` collects for one atom: a literal
argument yields a `const` constraint, and a variable argument repeating an
earlier argument yields an `eq` constraint against its first occurrence. -/
def atomConstraints (a : Atom) : List Constraint :=
  a.args.enum.foldl
    (fun acc p =>
      match p.2 with
      | .val v => acc ++ [.const p.1 v]
      | .var _ =>
          match (a.args.take p.1).findIdx? (· == p.2) with
          | some j => acc ++ [.eq j p.1]
          | none => acc)
    []

/-- The projection `Context::new` computes for one atom: for each variable
in elimination order, the first argument position holding it, if any. -/
def atomProjection (elimVars : List Sym) (a : Atom) : List Nat :=
  elimVars.foldl
    (fun acc v =>
      match a.args.findIdx? (· == AtomTerm.var v) with
      | some i => acc ++ [i]
      | none => acc)
    []

/-- Build the trie for atom `i` of the query under its timestamp range. -/
def buildTrieForAtom (g : EGraph) (elimVars : List Sym) (ranges : List TsRange)
    (i : Nat) (a : Atom) : Option Trie :=
  buildTrie g ⟨a.head, atomProjection elimVars a, atomConstraints a, ranges.getD i (0, 0)⟩

/-- The executor's mutable state: the tuple under construction and one trie
cursor per atom (the cursor vector is modelled as a function from atom
index). -/
structure Ctx where
  tuple : List Value
  tries : Nat → Trie

/-- The `?`-propagating loop of `Context::new`: build each element in
order, aborting at the first `none`. -/
def mapOptionList {α β : Type} (f : α → Option β) : List α → Option (List β)
  | [] => some []
  | x :: xs =>
      match f x with
      | none => none
      | some y =>
          match mapOptionList f xs with
          | none => none
          | some ys => some (y :: ys)

/-- Source `Context::new`: compile the program, then build every atom's trie; if
any trie is empty the whole context is `none` ("no results"). -/
def contextNew (g : EGraph) (q : Query) (ranges : List TsRange) :
    Except CompileErr (Option (Ctx × List Instr)) := do
  let layout := q.layout
  let pv ← compileProgram g q layout ranges
  match mapOptionList (fun p => buildTrieForAtom g pv.2 ranges p.1 p.2) q.atoms.enum with
  | none => pure none
  | some ts =>
      pure (some ({ tuple := List.replicate layout.length fakeValue,
                    tries := fun i => ts.getD i Trie.empty }, pv.1))

/-! ## The executor (`Context::eval`) -/

/-- Write one trie cursor. -/
def updateTrie (f : Nat → Trie) (j : Nat) (c : Trie) : Nat → Trie :=
  fun k => if k = j then c else f k

/-- Resolve a term against the current tuple: a variable reads its tuple
slot (via the layout), a literal supplies itself. -/
def resolveTerm (layout : List Sym) (tuple : List Value) : AtomTerm → Value
  | .var v => tuple.getD (layout.findIdx (· == v)) fakeValue
  | .val v => v

/-- The single-atom intersection loop: iterate the child map's entries,
binding the tuple slot and descending the one cursor before each recursive
call `k`. -/
def iterPairs (k : Ctx → Ctx × List (List Value)) (idx j : Nat) :
    List (Value × Trie) → Ctx → Ctx × List (List Value)
  | [], s => (s, [])
  | (v, c) :: ps, s =>
      let r1 := k { tuple := s.tuple.set idx v, tries := updateTrie s.tries j c }
      let r2 := iterPairs k idx j ps r1.1
      (r2.1, r1.2 ++ r2.2)

/-- The general intersection loop: for each candidate value, bind the tuple
slot, update the listed cursors via `upd`, and recurse through `k`. -/
def iterCands (k : Ctx → Ctx × List (List Value)) (idx : Nat)
    (upd : Value → (Nat → Trie) → Nat → Trie) :
    List Value → Ctx → Ctx × List (List Value)
  | [], s => (s, [])
  | v :: vs, s =>
      let r1 := k { tuple := s.tuple.set idx v, tries := upd v s.tries }
      let r2 := iterCands k idx upd vs r1.1
      (r2.1, r1.2 ++ r2.2)

/-- The `min_by_key` pick: the first listed index whose cursor has fewest children. -/
def minByLen (tr : Nat → Trie) : List Nat → Nat
  | [] => 0
  | j :: rest => rest.foldl (fun cur j2 => if (tr j2).len < (tr cur).len then j2 else cur) j

/-- Descend every saved cursor to the child keyed by `v`, or the shared
empty sentinel when absent. -/
def descendSaved : List (Trie × Nat) → Value → (Nat → Trie) → Nat → Trie
  | [], _, tr => tr
  | rj :: rs, v, tr => descendSaved rs v (updateTrie tr rj.2 ((rj.1.lookup v).getD Trie.empty))

/-- Restore every saved cursor. -/
def restoreSaved : List (Trie × Nat) → (Nat → Trie) → Nat → Trie
  | [], tr => tr
  | rj :: rs, tr => restoreSaved rs (updateTrie tr rj.2 rj.1)

/-- Source `Context::eval`: run the program recursively; an empty program emits
the current tuple.  The three intersection arms mirror the source's
`1`/`2`/general special cases; the `call` arm mirrors the primitive
invocation.  Emissions are collected in order instead of being passed to a
callback. -/
def eval (layout : List Sym) : List Instr → Ctx → Ctx × List (List Value)
  | [], s => (s, [s.tuple])
  | instr :: rest, s =>
    match instr with
    | .intersect idx js =>
        match js with
        | [] =>
            -- unreachable from compiled programs: every variable has at
            -- least one occurrence (`min_by_key(..).unwrap()` would panic)
            (s, [])
        | [j] =>
            let r := s.tries j
            let res := iterPairs (eval layout rest) idx j r.children s
            ({ res.1 with tries := updateTrie res.1.tries j r }, res.2)
        | [j0, j1] =>
            let r0 := s.tries j0
            let r1 := s.tries j1
            let cands :=
              if r0.len > r1.len then r1.keys.filter (fun v => (r0.lookup v).isSome)
              else r0.keys.filter (fun v => (r1.lookup v).isSome)
            let saved := [(r0, j0), (r1, j1)]
            let res := iterCands (eval layout rest) idx (descendSaved saved) cands s
            ({ res.1 with tries := restoreSaved saved res.1.tries }, res.2)
        | _ =>
            let jMin := minByLen s.tries js
            let cands := js.foldl
              (fun cs j => if j = jMin then cs
                           else cs.filter (fun v => ((s.tries j).lookup v).isSome))
              (s.tries jMin).keys
            let saved := js.map (fun j => (s.tries j, j))
            let res := iterCands (eval layout rest) idx (descendSaved saved) cands s
            ({ res.1 with tries := restoreSaved saved res.1.tries }, res.2)
    | .call prim args check =>
        if args.isEmpty then (s, [])  -- models the unreachable `split_last().unwrap()` on no args
        else
          let values := args.dropLast.map (resolveTerm layout s.tuple)
          match prim.apply values with
          | none => (s, [])
          | some res =>
            match args.getLast? with
            | some (.var v) =>
                let i := layout.findIdx (· == v)
                if check && !(s.tuple.getD i fakeValue == res) then (s, [])
                else eval layout rest { s with tuple := s.tuple.set i res }
            | some (.val v) => if v = res then eval layout rest s else (s, [])
            | none => (s, [])

/-! ## The seminaive driver (`run_query`) -/

/-- One compile-build-execute split: `Context::new` followed by `eval`;
an empty-trie context emits nothing. -/
def runSplit (g : EGraph) (q : Query) (ranges : List TsRange) :
    Except CompileErr (List (List Value)) := do
  match ← contextNew g q ranges with
  | none => pure []
  | some cp => pure (eval q.layout cp.2 cp.1).2

/-- The driver loop over atom indices, threading the mutable range vector:
before pass `i` the range of atom `i` becomes `[t, u32::MAX)`, and after
the pass it becomes `[0, t)`. -/
def runPasses (g : EGraph) (q : Query) (t : Nat) :
    List Nat → List TsRange → Except CompileErr (List (List Value))
  | [], _ => pure []
  | i :: is, ranges => do
      let r1 := ranges.set i (t, UMAX)
      let out ← runSplit g q r1
      let rest ← runPasses g q t is (r1.set i (0, t))
      pure (out ++ rest)

/-- Source `run_query`: with atoms, run one pass per atom in index order starting
from all-`[0, u32::MAX)` ranges; with no atoms, run a single pass with no
atoms. -/
def runQuery (g : EGraph) (q : Query) (t : Nat) : Except CompileErr (List (List Value)) :=
  if q.atoms.isEmpty then runSplit g q []
  else runPasses g q t (List.range q.atoms.length) (List.replicate q.atoms.length (0, UMAX))

/-! ## The claim-side description of the driver -/

/-- The ranges the claim attributes to pass `i`: atom `i` gets `[t, ∞)`,
every earlier atom `[0, t)`, every later atom `[0, ∞)`. -/
def claimRanges (n t i : Nat) : List TsRange :=
  (List.range n).map fun k => if k < i then (0, t) else if k = i then (t, UMAX) else (0, UMAX)

/-- Run one split per range vector, in order, concatenating emissions. -/
def splitsConcat (g : EGraph) (q : Query) : List (List TsRange) → Except CompileErr (List (List Value))
  | [] => pure []
  | r :: rs => do pure ((← runSplit g q r) ++ (← splitsConcat g q rs))

/-- The claim's description of `run_query`: with `N ≥ 1` atoms, exactly
one compile-build-execute pass per atom in index order using
`claimRanges`; with no atoms a single primitive-only pass. -/
def runQueryClaim (g : EGraph) (q : Query) (t : Nat) : Except CompileErr (List (List Value)) :=
  if q.atoms.length = 0 then runSplit g q []
  else splitsConcat g q ((List.range q.atoms.length).map (claimRanges q.atoms.length t))

/-- The driver's range vector at the top of the pass for atom `i`: atoms
before `i` already demoted to `[0, t)`, the rest still `[0, ∞)`. -/
def stateRanges (n t i : Nat) : List TsRange :=
  (List.range n).map fun k => if k < i then (0, t) else (0, UMAX)

/-! ## Primitive glue (`src/sort/i64.rs` and `src/sort/fn.rs`) -/

/-- Read a `Value` payload as an `i64` (two's complement). -/
def i64OfBits (b : Nat) : Int :=
  let m := b % Nat.pow 2 64
  if m < Nat.pow 2 63 then (m : Int) else (m : Int) - ((Nat.pow 2 64 : Nat) : Int)

/-- Store an `i64` back into a 64-bit payload. -/
def bitsOfI64 (i : Int) : Nat := (i % ((Nat.pow 2 64 : Nat) : Int)).toNat

/-- The `/` primitive of the i64 sort: `(b != 0).then(|| a / b)` with
Rust's truncating division. -/
def i64DivPrim : Primitive :=
  ⟨fun vs =>
    match vs with
    | [a, b] =>
        let bi := i64OfBits b.bits
        if bi ≠ 0 then some ⟨"i64", bitsOfI64 (Int.tdiv (i64OfBits a.bits) bi)⟩ else none
    | _ => none⟩

/-- The `%` primitive of the i64 sort: `(b != 0).then(|| a % b)` with
Rust's truncating remainder. -/
def i64ModPrim : Primitive :=
  ⟨fun vs =>
    match vs with
    | [a, b] =>
        let bi := i64OfBits b.bits
        if bi ≠ 0 then some ⟨"i64", bitsOfI64 (Int.tmod (i64OfBits a.bits) bi)⟩ else none
    | _ => none⟩

/-- The function sort's intern table (`functions: Mutex<IndexSet<(Symbol,
Vec<Value>)>>`), in insertion order. -/
abbrev FnSortState := List (Sym × List Value)

/-- Modelled from the spec glue: `Symbol::load` recovers the interned
string named by a string-sort value's payload; the intern table is
modelled by tagging the payload. -/
def symbolLoad (v : Value) : Sym := "sym" ++ toString v.bits

/-- Source `IntoSort for ValueFunction::store`: `insert_full` into the intern
table — an existing entry keeps its index and the table unchanged, a new
entry is appended.  The table is threaded as explicit state. -/
def valueFunctionStore (x : Sym × List Value) (sortName : Sym) (st : FnSortState) :
    Value × FnSortState :=
  match st.findIdx? (· == x) with
  | some i => (⟨sortName, i⟩, st)
  | none => (⟨sortName, st.length⟩, st ++ [x])

/-- Source `Ctor::apply` (the `fn` primitive): load the name from the first
argument and `store` the partial application, returning the interned
value and the updated intern table. -/
def ctorApply (sortName : Sym) (values : List Value) (st : FnSortState) :
    Option Value × FnSortState :=
  match values with
  | [] => (none, st)  -- `values[0]` would panic; arity is checked upstream
  | v0 :: rest =>
      let r := valueFunctionStore (symbolLoad v0, rest) sortName st
      (some r.1, r.2)

/-! ## Claims -/

/-- An i64 value. -/
def vInt (n : Nat) : Value := ⟨"i64", n⟩

/-- Whether `row` is a row of relation `sym` in the e-graph (at any
timestamp). -/
def rowInRelation (g : EGraph) (sym : Sym) (row : List Value) : Prop :=
  ∃ p ∈ (g.functions.lookup sym).getD ([] : List (List Value × Nat)), p.1 = row

/-- A relation row that satisfies the `Const(0, 5)` constraint but fails
the `Eq(1, 2)` constraint. -/
def c1Row : List Value := [vInt 5, vInt 1, vInt 2]

/-- An e-graph holding only that row. -/
def c1Graph : EGraph := ⟨[("f", [(c1Row, 0)])]⟩

/-- The trie request an atom `f(5, x, x)` produces: constraints
`[Const(0,5), Eq(1,2)]`, projection `[1]`. -/
def c1Req : TrieRequest := ⟨"f", [1], [.const 0 (vInt 5), .eq 1 2], (0, UMAX)⟩

/-- The query `f(x, x, x)` with no filters. -/
def c2Query : Query := ⟨[⟨"f", [.var "x", .var "x", .var "x"]⟩], []⟩

/-- An e-graph whose only `f` row is `(1, 1, 2)` at timestamp 0. -/
def c2Graph : EGraph := ⟨[("f", [([vInt 1, vInt 1, vInt 2], 0)])]⟩

/-- A primitive whose behaviour is irrelevant to scheduling. -/
def dummyPrim : Primitive := ⟨fun _ => none⟩

/-- A query whose only atom has an empty relation and whose two filters
form a primitive cycle (`b := p(a)` and `a := p(b)` with `a`, `b` not
bound by any atom). -/
def c6Query : Query :=
  ⟨[⟨"f", [.var "x"]⟩],
   [⟨dummyPrim, [.var "a", .var "b"]⟩, ⟨dummyPrim, [.var "b", .var "a"]⟩]⟩

/-- An e-graph in which relation `f` is empty. -/
def c6Graph : EGraph := ⟨[("f", [])]⟩

/-- A single-atom query over an empty relation, with no filters. -/
def c6wQuery : Query := ⟨[⟨"f", [.var "x"]⟩], []⟩

/-- A primitive returning the constant 1, used by the C7 witness. -/
def c7Prim : Primitive := ⟨fun _ => some (vInt 1)⟩

/-- A query with one atom and one filter whose output is the literal 1. -/
def c7Query : Query := ⟨[⟨"f", [.var "x"]⟩], [⟨c7Prim, [.var "x", .val (vInt 1)]⟩]⟩

/-- A concrete executor state for the C7 witness. -/
def c7Ctx : Ctx := ⟨[vInt 1], fun _ => Trie.empty⟩

/-- The candidate values the executor enumerates for one `Intersect`, as
selected by the source's three arms: the single cursor's keys; the smaller
of two cursors' keys filtered by the other; the first-smallest cursor's
keys filtered by every other listed cursor. -/
def candidatesOf (tr : Nat → Trie) (js : List Nat) : List Value :=
  match js with
  | [] => []
  | [j] => (tr j).keys
  | [j0, j1] =>
      if (tr j0).len > (tr j1).len then (tr j1).keys.filter (fun v => ((tr j0).lookup v).isSome)
      else (tr j0).keys.filter (fun v => ((tr j1).lookup v).isSome)
  | _ =>
      let jMin := minByLen tr js
      js.foldl
        (fun cs j => if j = jMin then cs else cs.filter (fun v => ((tr j).lookup v).isSome))
        (tr jMin).keys

/-- The claim's description of one `Intersect` step: save the listed
cursors; for each candidate value bind the tuple slot, descend each listed
cursor to the child keyed by it (or the shared empty sentinel when
absent), and recurse; finally restore the saved cursors.  Cursors of atoms
not listed are never touched (`descendSaved`/`restoreSaved` write only the
listed indices). -/
def intersectClaim (layout : List Sym) (idx : Nat) (js : List Nat) (rest : List Instr)
    (s : Ctx) : Ctx × List (List Value) :=
  let saved := js.map fun j => (s.tries j, j)
  let res := iterCands (eval layout rest) idx (descendSaved saved) (candidatesOf s.tries js) s
  ({ res.1 with tries := restoreSaved saved res.1.tries }, res.2)

/-- A concrete state for the C8 witness: one atom cursor holding a single
child. -/
def c8Ctx : Ctx := ⟨[fakeValue], fun _ => Trie.mk [(vInt 1, Trie.empty)]⟩

/-! ## The filter-scheduling characterization (C5) -/

/-- The argument list of an instruction (`Call`s only). -/
def instrArgs : Instr → List AtomTerm
  | .intersect _ _ => []
  | .call _ args _ => args

/-- The states the scheduling loop passes through: each step removes the
first schedulable filter and possibly binds its fresh output variable. -/
inductive SchedReaches : (List Sym × List PrimAtom) → (List Sym × List PrimAtom) → Prop where
  | refl (s : List Sym × List PrimAtom) : SchedReaches s s
  | step {b : List Sym} {e : List PrimAtom} {p : PrimAtom} {rest : List PrimAtom}
      {s' : List Sym × List PrimAtom} :
      pickFirst b e = .ok (some (p, rest)) →
      SchedReaches ((callCheckBound b p).2, rest) s' →
      SchedReaches (b, e) s'

/-! ## Claim theorems and supporting lemmas -/

theorem stateRanges_zero (n t : Nat) : stateRanges n t 0 = List.replicate n (0, UMAX) := by
  apply List.ext_getElem
  · simp [stateRanges]
  · intro k h1 h2
    simp [stateRanges]

theorem stateRanges_set_hi (n t i : Nat) (_h : i < n) :
    (stateRanges n t i).set i (t, UMAX) = claimRanges n t i := by
  apply List.ext_getElem
  · simp [stateRanges, claimRanges]
  · intro k h1 h2
    simp only [stateRanges, claimRanges, List.getElem_set, List.getElem_map, List.getElem_range]
    rcases Nat.lt_trichotomy k i with hk | hk | hk
    · simp [hk, Nat.ne_of_gt hk, Nat.ne_of_lt hk]
    · simp [hk]
    · simp [Nat.ne_of_lt hk, Nat.ne_of_gt hk, Nat.lt_asymm hk]

theorem claimRanges_set_lo (n t i : Nat) (_h : i < n) :
    (claimRanges n t i).set i (0, t) = stateRanges n t (i + 1) := by
  apply List.ext_getElem
  · simp [stateRanges, claimRanges]
  · intro k h1 h2
    simp only [stateRanges, claimRanges, List.getElem_set, List.getElem_map, List.getElem_range]
    rcases Nat.lt_trichotomy k i with hk | hk | hk
    · simp [hk, Nat.ne_of_gt hk, Nat.ne_of_lt hk, Nat.lt_succ_of_lt hk]
    · simp [hk]
    · have h1 : ¬ k < i := Nat.lt_asymm hk
      have h2 : ¬ k < i + 1 := by omega
      simp [Nat.ne_of_lt hk, Nat.ne_of_gt hk, h1, h2]

theorem runPasses_eq_claim (g : EGraph) (q : Query) (t n : Nat) :
    ∀ cnt i, i + cnt = n →
      runPasses g q t (List.range' i cnt) (stateRanges n t i) =
      splitsConcat g q ((List.range' i cnt).map (claimRanges n t)) := by
  intro cnt
  induction cnt with
  | zero => intro i _; simp [runPasses, splitsConcat]
  | succ m ih =>
      intro i hi
      have hlt : i < n := by omega
      rw [List.range'_succ]
      simp only [runPasses, List.map_cons, splitsConcat]
      rw [stateRanges_set_hi n t i hlt, claimRanges_set_lo n t i hlt,
        ih (i + 1) (by omega)]

/-- C4: `run_query` performs exactly one pass per atom, in atom-index
order, where pass `i` restricts atom `i` to `[t, ∞)`, every earlier atom
to `[0, t)` and every later atom to `[0, ∞)`; with no atoms it performs a
single pass with no atoms. -/
theorem c4_seminaive_pass_structure (g : EGraph) (q : Query) (t : Nat) :
    runQuery g q t = runQueryClaim g q t := by
  unfold runQuery runQueryClaim
  by_cases h : q.atoms.isEmpty
  · have hl : q.atoms.length = 0 := by simpa [List.isEmpty_iff_length_eq_zero] using h
    simp [h, hl]
  · have hl : ¬ q.atoms.length = 0 := by
      simpa [List.isEmpty_iff_length_eq_zero] using h
    rw [if_neg h, if_neg hl, List.range_eq_range', ← stateRanges_zero q.atoms.length t,
      runPasses_eq_claim g q t q.atoms.length q.atoms.length 0 (by omega)]

/-- C1: the claim says a row is inserted iff it satisfies every constraint
in the set, and a row failing any one constraint is never inserted.  The
source inserts inside the per-constraint loop, so the row `(5, 1, 2)` —
which satisfies `Const(0,5)` but fails `Eq(1,2)` — is inserted anyway:
`build_trie` returns a trie containing its projection. -/
theorem c1_buildTrie_inserts_row_failing_a_constraint :
    constraintOk c1Row (Constraint.eq 1 2) = false ∧
    buildTrie c1Graph c1Req = some (Trie.mk [(vInt 1, Trie.mk [])]) :=
  ⟨rfl, rfl⟩

/-- C2: the claim says `run_query` emits exactly the assignments under
which every atom is matched by a row of its relation.  On `f(x, x, x)`
over the single row `(1, 1, 2)` at `t = 0`, the engine emits `x = 1`
although substituting `x = 1` into the atom gives `(1, 1, 1)`, which is
not a row of `f` — a consequence of the constraint-loop insertion slip in
`build_trie`. -/
theorem c2_run_query_emits_nonmatching_assignment :
    runQuery c2Graph c2Query 0 = .ok [[vInt 1]] ∧
    ¬ rowInRelation c2Graph "f"
        ((⟨"f", [.var "x", .var "x", .var "x"]⟩ : Atom).args.map
          (resolveTerm c2Query.layout [vInt 1])) := by
  refine ⟨rfl, ?_⟩
  rintro ⟨p, hp, hrow⟩
  have hpe : p = ([vInt 1, vInt 1, vInt 2], 0) := by
    simpa [c2Graph] using hp
  subst hpe
  exact (by decide : ¬ ([vInt 1, vInt 1, vInt 2] =
    (((⟨"f", [.var "x", .var "x", .var "x"]⟩ : Atom)).args.map
      (resolveTerm c2Query.layout [vInt 1])))) hrow

/-- C3: the claim says `run_query` at `t = 0` emits the full join (every
satisfying assignment, and nothing else).  On `f(x, x, x)` over the single
row `(1, 1, 2)` the full join is empty — no value `v` has `(v, v, v)` as a
row — yet the engine emits `x = 1`. -/
theorem c3_t_zero_not_full_join :
    runQuery c2Graph c2Query 0 = .ok [[vInt 1]] ∧
    ¬ ∃ v : Value, rowInRelation c2Graph "f" [v, v, v] := by
  refine ⟨rfl, ?_⟩
  rintro ⟨v, p, hp, hrow⟩
  have hpe : p = ([vInt 1, vInt 1, vInt 2], 0) := by
    simpa [c2Graph] using hp
  subst hpe
  injection hrow with ha hrest
  injection hrest with hb hrest2
  injection hrest2 with hc hnil
  exact (by decide : ¬ (vInt 1 = vInt 2)) (ha.trans hc.symm)

/-- C9: the claim says applying a primitive does not mutate e-graph state.
`Ctor::apply` (the `fn` primitive of the function sort) calls `store`,
which inserts the partial application into the sort's intern table: on a
table not yet holding the entry, the returned state differs from the input
state. -/
theorem c9_ctor_apply_mutates_state :
    (ctorApply "IntToString" [⟨"String", 7⟩, vInt 3] []).2 = [("sym7", [vInt 3])] ∧
    [("sym7", [vInt 3])] ≠ ([] : FnSortState) :=
  ⟨rfl, by decide⟩

/-- C10: the `/` and `%` primitives of the i64 sort return `None` whenever
the divisor loads as zero, and a `Some` result is only ever produced with
a nonzero divisor — the division is never attempted with divisor zero. -/
theorem c10_div_mod_by_zero_pruned :
    ∀ a b : Value, (i64OfBits b.bits = 0 →
      i64DivPrim.apply [a, b] = none ∧ i64ModPrim.apply [a, b] = none) ∧
    (∀ r : Value, i64DivPrim.apply [a, b] = some r → i64OfBits b.bits ≠ 0) ∧
    (∀ r : Value, i64ModPrim.apply [a, b] = some r → i64OfBits b.bits ≠ 0) := by
  intro a b
  refine ⟨fun h => ?_, fun r hr => ?_, fun r hr => ?_⟩
  · constructor <;> simp [i64DivPrim, i64ModPrim, h]
  · intro h0
    simp [i64DivPrim, h0] at hr
  · intro h0
    simp [i64ModPrim, h0] at hr

/-- Witness for C10 at a concrete input: dividing 7 by 0 is pruned. -/
theorem c10_div_mod_by_zero_pruned_witness :
    i64DivPrim.apply [vInt 7, vInt 0] = none ∧ i64ModPrim.apply [vInt 7, vInt 0] = none :=
  (c10_div_mod_by_zero_pruned (vInt 7) (vInt 0)).1 (by decide)

/-- C6 counterexample: the claim says that whenever some atom's trie has
zero rows, `Context::new` returns no context and no error is raised.  But
`compile_program` runs before any trie is built: with cyclic filters and
an empty relation, the atom's trie would be empty, yet `Context::new`
raises `CyclicPrimitives` (the source panics) instead of returning "no
results". -/
theorem c6_error_despite_empty_trie :
    buildTrieForAtom c6Graph ["x"] [(0, UMAX)] 0 ⟨"f", [.var "x"]⟩ = none ∧
    contextNew c6Graph c6Query [(0, UMAX)] = .error .cyclicPrimitives ∧
    runSplit c6Graph c6Query [(0, UMAX)] = .error .cyclicPrimitives :=
  ⟨rfl, rfl, rfl⟩

/-- If some element of the list maps to `none`, the whole `?`-loop is `none`. -/
theorem mapOptionList_none {α β : Type} (f : α → Option β) :
    ∀ (l : List α) (x : α), x ∈ l → f x = none → mapOptionList f l = none := by
  intro l
  induction l with
  | nil => intro x hx; cases hx
  | cons y ys ih =>
      intro x hx hfx
      rcases List.mem_cons.mp hx with h | h
      · subst h
        simp [mapOptionList, hfx]
      · cases hy : f y with
        | none => simp [mapOptionList, hy]
        | some b => simp [mapOptionList, hy, ih x h hfx]

/-- C6 (amended): provided program compilation succeeds (the filter
scheduling loop finds no cyclic dependency), if the trie built for some
atom under its constraints and timestamp range contains zero rows, then
`Context::new` returns no context, zero tuples are emitted for that split,
and no error is raised. -/
theorem c6_empty_trie_short_circuits :
    ∀ (g : EGraph) (q : Query) (ranges : List TsRange) (prog : List Instr) (ev : List Sym),
      compileProgram g q q.layout ranges = .ok (prog, ev) →
      (∃ i a, q.atoms[i]? = some a ∧ buildTrieForAtom g ev ranges i a = none) →
      contextNew g q ranges = .ok none ∧ runSplit g q ranges = .ok [] := by
  rintro g q ranges prog ev hc ⟨i, a, hga, hbt⟩
  have hmem : (i, a) ∈ q.atoms.enum := List.mk_mem_enum_iff_getElem?.mpr hga
  have hnone :
      mapOptionList (fun p => buildTrieForAtom g ev ranges p.1 p.2) q.atoms.enum = none :=
    mapOptionList_none _ _ _ hmem hbt
  constructor
  · simp [contextNew, hc, hnone, Bind.bind, Except.bind, Pure.pure, Except.pure]
  · simp [runSplit, contextNew, hc, hnone, Bind.bind, Except.bind, Pure.pure, Except.pure]

/-- Calls appended by the scheduling loop always carry `check = true` when
their output term is a literal (the `assert!(check)` of the executor can
therefore never fire on a compiled program). -/
theorem scheduleGo_const_check :
    ∀ (fuel : Nat) (bound : List Sym) (extra : List PrimAtom) (acc prog : List Instr)
      (ev : List Sym),
      (∀ (prim : Primitive) (args : List AtomTerm) (check : Bool) (v : Value),
        Instr.call prim args check ∈ acc → args.getLast? = some (.val v) → check = true) →
      scheduleGo fuel bound extra acc = .ok (prog, ev) →
      ∀ (prim : Primitive) (args : List AtomTerm) (check : Bool) (v : Value),
        Instr.call prim args check ∈ prog → args.getLast? = some (.val v) → check = true := by
  intro fuel
  induction fuel with
  | zero =>
      intro bound extra acc prog ev hacc hok
      by_cases he : extra.isEmpty
      · simp [scheduleGo, he] at hok
        obtain ⟨h1, h2⟩ := hok
        exact h1 ▸ hacc
      · simp [scheduleGo, he] at hok
  | succ m ih =>
      intro bound extra acc prog ev hacc hok
      by_cases he : extra.isEmpty
      · simp [scheduleGo, he] at hok
        obtain ⟨h1, h2⟩ := hok
        exact h1 ▸ hacc
      · simp only [scheduleGo, he, if_false, Bool.false_eq_true] at hok
        cases hpick : pickFirst bound extra with
        | error e => rw [hpick] at hok; cases hok
        | ok o =>
            cases o with
            | none => rw [hpick] at hok; cases hok
            | some pr =>
                rw [hpick] at hok
                refine ih _ _ _ _ _ ?_ hok
                intro prim args check v hmem hlast
                rcases List.mem_append.mp hmem with h | h
                · exact hacc prim args check v h hlast
                · have heq := List.mem_singleton.mp h
                  cases heq
                  unfold callCheckBound
                  rw [hlast]

/-- C7: on a `Call` instruction, a primitive returning no value prunes the
branch; a literal output is compiled with `check = true` and the branch
recurses exactly when the result equals the literal; a bound variable
output (`check = true`) recurses exactly when the result equals the
current binding; a fresh variable output (`check = false`) is written and
evaluation recurses. -/
theorem c7_call_semantics :
    (∀ (g : EGraph) (q : Query) (layout : List Sym) (ranges : List TsRange)
        (prog : List Instr) (ev : List Sym) (prim : Primitive) (args : List AtomTerm)
        (check : Bool) (v : Value),
        compileProgram g q layout ranges = .ok (prog, ev) →
        Instr.call prim args check ∈ prog → args.getLast? = some (.val v) → check = true) ∧
    (∀ (layout : List Sym) (prim : Primitive) (args : List AtomTerm) (check : Bool)
        (rest : List Instr) (s : Ctx), args ≠ [] →
      (prim.apply (args.dropLast.map (resolveTerm layout s.tuple)) = none →
        eval layout (.call prim args check :: rest) s = (s, [])) ∧
      (∀ res v, prim.apply (args.dropLast.map (resolveTerm layout s.tuple)) = some res →
        args.getLast? = some (.val v) →
        eval layout (.call prim args check :: rest) s =
          if v = res then eval layout rest s else (s, [])) ∧
      (∀ res x, prim.apply (args.dropLast.map (resolveTerm layout s.tuple)) = some res →
        args.getLast? = some (.var x) → check = true →
        eval layout (.call prim args check :: rest) s =
          if s.tuple.getD (layout.findIdx (· == x)) fakeValue = res
          then eval layout rest { s with tuple := s.tuple.set (layout.findIdx (· == x)) res }
          else (s, [])) ∧
      (∀ res x, prim.apply (args.dropLast.map (resolveTerm layout s.tuple)) = some res →
        args.getLast? = some (.var x) → check = false →
        eval layout (.call prim args check :: rest) s =
          eval layout rest { s with tuple := s.tuple.set (layout.findIdx (· == x)) res })) := by
  constructor
  · intro g q layout ranges prog ev prim args check v hc hmem hlast
    unfold compileProgram schedule at hc
    refine scheduleGo_const_check _ _ _ _ _ _ ?_ hc prim args check v hmem hlast
    intro prim' args' check' v' hmem' _
    rcases List.mem_map.mp hmem' with ⟨p, -, hp⟩
    cases hp
  · intro layout prim args check rest s hne
    have hie : args.isEmpty = false := by
      cases args with
      | nil => exact absurd rfl hne
      | cons a as => rfl
    refine ⟨fun hnone => ?_, fun res v hsome hlast => ?_,
      fun res x hsome hlast hck => ?_, fun res x hsome hlast hck => ?_⟩
    · rw [List.map_dropLast] at hnone
      simp [eval, hie, hnone]
    · simp only [eval, hie, Bool.false_eq_true, if_false, hsome, hlast]
    · subst hck
      rw [List.map_dropLast] at hsome
      by_cases hv : s.tuple.getD (layout.findIdx (· == x)) fakeValue = res
      · simp [eval, hie, hsome, hlast, hv]
      · simp [eval, hie, hsome, hlast, hv]
    · subst hck
      rw [List.map_dropLast] at hsome
      simp [eval, hie, hsome, hlast]

theorem descendSaved_notMem :
    ∀ (saved : List (Trie × Nat)) (v : Value) (tr : Nat → Trie) (k : Nat),
      k ∉ saved.map (·.2) → descendSaved saved v tr k = tr k := by
  intro saved
  induction saved with
  | nil => intro v tr k _; rfl
  | cons rj rs ih =>
      intro v tr k hk
      simp only [List.map_cons, List.mem_cons] at hk
      push_neg at hk
      simp only [descendSaved]
      rw [ih v _ k hk.2]
      simp [updateTrie, hk.1]

theorem restoreSaved_notMem :
    ∀ (saved : List (Trie × Nat)) (tr : Nat → Trie) (k : Nat),
      k ∉ saved.map (·.2) → restoreSaved saved tr k = tr k := by
  intro saved
  induction saved with
  | nil => intro tr k _; rfl
  | cons rj rs ih =>
      intro tr k hk
      simp only [List.map_cons, List.mem_cons] at hk
      push_neg at hk
      simp only [restoreSaved]
      rw [ih _ k hk.2]
      simp [updateTrie, hk.1]

theorem restoreSaved_map (f : Nat → Trie) :
    ∀ (js : List Nat) (tr : Nat → Trie) (k : Nat),
      restoreSaved (js.map fun j => (f j, j)) tr k = if k ∈ js then f k else tr k := by
  intro js
  induction js with
  | nil => intro tr k; simp [restoreSaved]
  | cons j js' ih =>
      intro tr k
      simp only [List.map_cons, restoreSaved]
      rw [ih]
      by_cases hk : k ∈ js'
      · simp [hk]
      · by_cases hkj : k = j
        · subst hkj; simp [hk, updateTrie]
        · simp [hk, hkj, updateTrie]

theorem iterCands_frame (k : Ctx → Ctx × List (List Value)) (idx : Nat)
    (upd : Value → (Nat → Trie) → Nat → Trie) (touched : List Nat)
    (hk : ∀ s, (k s).1.tries = s.tries)
    (hupd : ∀ v tr k', k' ∉ touched → upd v tr k' = tr k') :
    ∀ (vs : List Value) (s : Ctx) (k' : Nat), k' ∉ touched →
      (iterCands k idx upd vs s).1.tries k' = s.tries k' := by
  intro vs
  induction vs with
  | nil => intro s k' _; rfl
  | cons v vs' ih =>
      intro s k' hk'
      simp only [iterCands]
      rw [ih _ _ hk', hk]
      exact hupd v s.tries k' hk'

theorem iterPairs_frame (k : Ctx → Ctx × List (List Value)) (idx j : Nat)
    (hk : ∀ s, (k s).1.tries = s.tries) :
    ∀ (ps : List (Value × Trie)) (s : Ctx) (k' : Nat), k' ≠ j →
      (iterPairs k idx j ps s).1.tries k' = s.tries k' := by
  intro ps
  induction ps with
  | nil => intro s k' _; rfl
  | cons p ps' ih =>
      intro s k' hk'
      simp only [iterPairs]
      rw [ih _ _ hk', hk]
      simp [updateTrie, hk']

/-- Frame lemma: `eval` leaves every trie cursor as it found it: each `Intersect`
restores its saved cursors and `Call` never touches them. -/
theorem evalPreservesTries (layout : List Sym) :
    ∀ (p : List Instr) (s : Ctx), (eval layout p s).1.tries = s.tries := by
  intro p
  induction p with
  | nil => intro s; rfl
  | cons instr rest ih =>
      intro s
      cases instr with
      | intersect idx js =>
          rcases js with _ | ⟨j, _ | ⟨j1, js''⟩⟩
          · rfl
          · funext k'
            simp only [eval]
            by_cases hkj : k' = j
            · subst hkj; simp [updateTrie]
            · simp only [updateTrie, if_neg hkj]
              exact iterPairs_frame _ idx j (fun s' => ih s') _ s k' hkj
          · rcases js'' with _ | ⟨j2, js'⟩
            · funext k'
              show restoreSaved ([j, j1].map fun j => (s.tries j, j)) _ k' = s.tries k'
              rw [restoreSaved_map]
              by_cases hk : k' ∈ [j, j1]
              · simp [hk]
              · rw [if_neg hk]
                refine iterCands_frame _ idx _ [j, j1] (fun s' => ih s') ?_ _ s k' hk
                intro v tr k'' hk''
                exact descendSaved_notMem _ v tr k'' (by simpa using hk'')
            · funext k'
              show restoreSaved ((j :: j1 :: j2 :: js').map fun j => (s.tries j, j)) _ k'
                = s.tries k'
              rw [restoreSaved_map]
              by_cases hk : k' ∈ j :: j1 :: j2 :: js'
              · simp [hk]
              · rw [if_neg hk]
                refine iterCands_frame _ idx _ (j :: j1 :: j2 :: js') (fun s' => ih s') ?_
                  _ s k' hk
                intro v tr k'' hk''
                exact descendSaved_notMem _ v tr k'' (by simpa using hk'')
      | call prim args check =>
          by_cases hie : args.isEmpty
          · simp [eval, hie]
          · simp only [eval, hie, Bool.false_eq_true, if_false]
            cases happly : prim.apply (args.dropLast.map (resolveTerm layout s.tuple)) with
            | none => simp only [happly]
            | some res =>
                simp only [happly]
                cases hlast : args.getLast? with
                | none => simp only [hlast]
                | some t =>
                    cases t with
                    | var v =>
                        simp only [hlast]
                        split
                        · rfl
                        · exact ih _
                    | val v =>
                        simp only [hlast]
                        split
                        · exact ih _
                        · rfl

theorem lookup_of_mem_nodup :
    ∀ (cs : List (Value × Trie)), (cs.map (·.1)).Nodup →
      ∀ (v : Value) (c : Trie), (v, c) ∈ cs → cs.lookup v = some c := by
  intro cs
  induction cs with
  | nil => intro _ v c hm; cases hm
  | cons p ps ih =>
      intro hnd v c hm
      simp only [List.map_cons, List.nodup_cons] at hnd
      rcases List.mem_cons.mp hm with h | h
      · cases h
        simp [List.lookup]
      · have hne : (v == p.1) = false := by
          have : p.1 ≠ v := fun he => hnd.1 (he ▸ List.mem_map.mpr ⟨(v, c), h, rfl⟩)
          simpa using (Ne.symm this)
        simp [List.lookup, hne, ih hnd.2 v c h]

theorem iterPairs_eq_iterCands (k : Ctx → Ctx × List (List Value)) (idx j : Nat) (r : Trie) :
    ∀ (cs : List (Value × Trie)), (∀ v c, (v, c) ∈ cs → r.lookup v = some c) →
      ∀ s, iterPairs k idx j cs s = iterCands k idx (descendSaved [(r, j)]) (cs.map (·.1)) s := by
  intro cs
  induction cs with
  | nil => intro _ s; rfl
  | cons p ps ih =>
      intro h s
      have hp : r.lookup p.1 = some p.2 := h p.1 p.2 (by exact List.mem_cons_self _ _)
      simp only [iterPairs, iterCands, List.map_cons]
      rw [show descendSaved [(r, j)] p.1 s.tries = updateTrie s.tries j p.2 by
            simp [descendSaved, hp],
        ih (fun v c hm => h v c (List.mem_cons_of_mem _ hm))]

/-- C8: executing an `Intersect` instruction behaves as the claim
describes — per candidate each listed cursor descends to the child keyed
by the candidate (or the shared empty sentinel), unlisted cursors are
never written, and on completion every cursor equals its value before the
instruction. -/
theorem c8_intersect_frame :
    ∀ (layout : List Sym) (idx : Nat) (js : List Nat) (rest : List Instr) (s : Ctx),
      js ≠ [] → (∀ j ∈ js, ((s.tries j).keys).Nodup) →
      eval layout (.intersect idx js :: rest) s = intersectClaim layout idx js rest s ∧
      (eval layout (.intersect idx js :: rest) s).1.tries = s.tries := by
  intro layout idx js rest s hne hnd
  refine ⟨?_, evalPreservesTries layout _ s⟩
  rcases js with _ | ⟨j, _ | ⟨j1, _ | ⟨j2, js'⟩⟩⟩
  · exact absurd rfl hne
  · have hl := lookup_of_mem_nodup (s.tries j).children (hnd j (by simp))
    simp only [eval, intersectClaim, candidatesOf, List.map_cons, List.map_nil]
    rw [iterPairs_eq_iterCands (eval layout rest) idx j (s.tries j)
          (s.tries j).children (fun v c hm => hl v c hm) s]
    rfl
  · rfl
  · rfl

/-- Witness for C8 at a concrete instruction and state. -/
theorem c8_intersect_frame_witness :
    eval [] [.intersect 0 [0]] c8Ctx = intersectClaim [] 0 [0] [] c8Ctx ∧
    (eval [] [.intersect 0 [0]] c8Ctx).1.tries = c8Ctx.tries :=
  c8_intersect_frame [] 0 [0] [] c8Ctx (by simp)
    (by intro j hj; simp [c8Ctx, Trie.keys, Trie.children])

/-- Witness for C7: the compiled call for the literal-output filter of
`c7Query` carries `check = true`, and executing that call recurses since
the primitive result equals the literal. -/
theorem c7_call_semantics_witness :
    (true = true) ∧
    (eval ["x"] [.call c7Prim [.var "x", .val (vInt 1)] true] c7Ctx =
      if vInt 1 = vInt 1 then eval ["x"] [] c7Ctx else (c7Ctx, [])) :=
  ⟨c7_call_semantics.1 c6Graph c7Query c7Query.layout [(0, UMAX)]
      [Instr.intersect 0 [0], Instr.call c7Prim [.var "x", .val (vInt 1)] true] ["x"]
      c7Prim [.var "x", .val (vInt 1)] true (vInt 1) (by rfl)
      (List.mem_cons_of_mem _ (List.mem_singleton.mpr rfl)) (by rfl),
   (c7_call_semantics.2 ["x"] c7Prim [.var "x", .val (vInt 1)] true [] c7Ctx
      (by simp)).2.1 (vInt 1) (vInt 1) (by rfl) (by rfl)⟩

/-- Witness for the amended C6 at a concrete input. -/
theorem c6_empty_trie_short_circuits_witness :
    contextNew c6Graph c6wQuery [(0, UMAX)] = .ok none ∧
    runSplit c6Graph c6wQuery [(0, UMAX)] = .ok [] :=
  c6_empty_trie_short_circuits c6Graph c6wQuery [(0, UMAX)]
    [Instr.intersect 0 [0]] ["x"] (by rfl)
    ⟨0, ⟨"f", [.var "x"]⟩, by rfl, by rfl⟩

theorem pickFirst_perm :
    ∀ (b : List Sym) (e : List PrimAtom) (p : PrimAtom) (rest : List PrimAtom),
      pickFirst b e = .ok (some (p, rest)) → e.Perm (p :: rest) := by
  intro b e
  induction e with
  | nil => intro p rest h; cases h
  | cons q qs ih =>
      intro p rest h
      by_cases hq : q.args.isEmpty
      · simp [pickFirst, hq] at h
      · by_cases hs : schedulable b q
        · simp only [pickFirst, hq, Bool.false_eq_true, if_false, hs, if_true,
            Except.ok.injEq, Option.some.injEq, Prod.mk.injEq] at h
          obtain ⟨h1, h2⟩ := h
          subst h1; subst h2
          exact List.Perm.refl _
        · simp only [pickFirst, hq, Bool.false_eq_true, if_false, hs] at h
          cases hrec : pickFirst b qs with
          | error e' => rw [hrec] at h; cases h
          | ok o =>
              cases o with
              | none => rw [hrec] at h; cases h
              | some pr =>
                  rw [hrec] at h
                  simp only [Except.ok.injEq, Option.some.injEq, Prod.mk.injEq] at h
                  obtain ⟨h1, h2⟩ := h
                  subst h1
                  subst h2
                  exact ((ih pr.1 pr.2 hrec).cons q).trans (List.Perm.swap _ _ _)

theorem pickFirst_found :
    ∀ (b : List Sym) (e : List PrimAtom) (p : PrimAtom) (rest : List PrimAtom),
      pickFirst b e = .ok (some (p, rest)) → schedulable b p = true ∧ p ∈ e := by
  intro b e
  induction e with
  | nil => intro p rest h; cases h
  | cons q qs ih =>
      intro p rest h
      by_cases hq : q.args.isEmpty
      · simp [pickFirst, hq] at h
      · by_cases hs : schedulable b q
        · simp only [pickFirst, hq, Bool.false_eq_true, if_false, hs, if_true,
            Except.ok.injEq, Option.some.injEq, Prod.mk.injEq] at h
          obtain ⟨h1, -⟩ := h
          subst h1
          exact ⟨hs, List.mem_cons_self _ _⟩
        · simp only [pickFirst, hq, Bool.false_eq_true, if_false, hs] at h
          cases hrec : pickFirst b qs with
          | error e' => rw [hrec] at h; cases h
          | ok o =>
              cases o with
              | none => rw [hrec] at h; cases h
              | some pr =>
                  rw [hrec] at h
                  simp only [Except.ok.injEq, Option.some.injEq, Prod.mk.injEq] at h
                  obtain ⟨h1, -⟩ := h
                  subst h1
                  obtain ⟨hsch, hmem⟩ := ih pr.1 pr.2 hrec
                  exact ⟨hsch, List.mem_cons_of_mem _ hmem⟩

theorem pickFirst_none_iff :
    ∀ (b : List Sym) (e : List PrimAtom), (∀ p ∈ e, p.args ≠ []) →
      (pickFirst b e = .ok none ↔ ∀ p ∈ e, schedulable b p = false) := by
  intro b e
  induction e with
  | nil => intro _; simp [pickFirst]
  | cons q qs ih =>
      intro wf
      have hq : q.args.isEmpty = false := by
        cases hargs : q.args with
        | nil => exact absurd hargs (wf q (List.mem_cons_self _ _))
        | cons a as => rfl
      by_cases hs : schedulable b q
      · simp only [pickFirst, hq, Bool.false_eq_true, if_false, hs, if_true]
        constructor
        · intro h; cases h
        · intro h
          exact absurd (h q (List.mem_cons_self _ _)) (by simp [hs])
      · simp only [pickFirst, hq, Bool.false_eq_true, if_false, hs]
        have ihs := ih (fun p hp => wf p (List.mem_cons_of_mem _ hp))
        cases hrec : pickFirst b qs with
        | error e' =>
            constructor
            · intro h; cases h
            · intro h
              exact absurd (ihs.mpr (fun p hp => h p (List.mem_cons_of_mem _ hp)))
                (by simp [hrec])
        | ok o =>
            cases o with
            | none =>
                constructor
                · intro _
                  intro p hp
                  rcases List.mem_cons.mp hp with h | h
                  · subst h; simpa using hs
                  · exact (ihs.mp hrec) p h
                · intro _; rfl
            | some pr =>
                constructor
                · intro h; cases h
                · intro h
                  have hcon : pickFirst b qs = .ok none :=
                    ihs.mpr (fun p hp => h p (List.mem_cons_of_mem _ hp))
                  rw [hrec] at hcon; cases hcon

theorem pickFirst_no_assert :
    ∀ (b : List Sym) (e : List PrimAtom), (∀ p ∈ e, p.args ≠ []) →
      ∀ err, pickFirst b e ≠ .error err := by
  intro b e
  induction e with
  | nil => intro _ err h; cases h
  | cons q qs ih =>
      intro wf err
      have hq : q.args.isEmpty = false := by
        cases hargs : q.args with
        | nil => exact absurd hargs (wf q (List.mem_cons_self _ _))
        | cons a as => rfl
      by_cases hs : schedulable b q
      · simp [pickFirst, hq, hs]
      · simp only [pickFirst, hq, Bool.false_eq_true, if_false, hs]
        cases hrec : pickFirst b qs with
        | error e' =>
            exact absurd hrec (ih (fun p hp => wf p (List.mem_cons_of_mem _ hp)) e')
        | ok o => cases o <;> simp

theorem schedReaches_nil :
    ∀ (b : List Sym) (s' : List Sym × List PrimAtom),
      SchedReaches (b, []) s' → s' = (b, []) := by
  intro b s' h
  cases h with
  | refl => rfl
  | step hpick _ => cases hpick

/-- The full behaviour of the scheduling loop, by induction on the fuel
(which `schedule` instantiates with the number of filters; each step
removes exactly one filter, so the fuel never runs out early). -/
theorem scheduleGo_spec :
    ∀ (fuel : Nat) (bound : List Sym) (extra : List PrimAtom) (acc : List Instr),
      extra.length = fuel → (∀ p ∈ extra, p.args ≠ []) →
      (scheduleGo fuel bound extra acc = .error .cyclicPrimitives ↔
        ∃ s', SchedReaches (bound, extra) s' ∧ s'.2 ≠ [] ∧
          ∀ p ∈ s'.2, schedulable s'.1 p = false) ∧
      (scheduleGo fuel bound extra acc ≠ .error .emptyPrimArgs) ∧
      (∀ prog ev, scheduleGo fuel bound extra acc = .ok (prog, ev) →
        ∃ calls, prog = acc ++ calls ∧
          (∀ c ∈ calls, ∃ prim args check, c = Instr.call prim args check) ∧
          (calls.map instrArgs).Perm (extra.map (·.args))) := by
  intro fuel
  induction fuel with
  | zero =>
      intro bound extra acc hlen wf
      have hext : extra = [] := List.length_eq_zero.mp hlen
      subst hext
      refine ⟨?_, ?_, ?_⟩
      · constructor
        · intro h; simp [scheduleGo] at h
        · rintro ⟨s', hr, hne, -⟩
          exact absurd (congrArg Prod.snd (schedReaches_nil bound s' hr)) hne
      · intro h; simp [scheduleGo] at h
      · intro prog ev h
        simp only [scheduleGo, List.isEmpty_nil, if_true, Except.ok.injEq,
          Prod.mk.injEq] at h
        obtain ⟨h1, -⟩ := h
        refine ⟨[], by simp [h1], ?_, by simp⟩
        intro c hc; cases hc
  | succ m ih =>
      intro bound extra acc hlen wf
      have hne : extra.isEmpty = false := by
        cases extra with
        | nil => cases hlen
        | cons q qs => rfl
      cases hpick : pickFirst bound extra with
      | error err => exact absurd hpick (pickFirst_no_assert bound extra wf err)
      | ok o =>
          cases o with
          | none =>
              have heq : scheduleGo (m + 1) bound extra acc = .error .cyclicPrimitives := by
                simp [scheduleGo, hne, hpick]
              refine ⟨?_, ?_, ?_⟩
              · rw [heq]
                constructor
                · intro _
                  refine ⟨(bound, extra), SchedReaches.refl _, ?_, ?_⟩
                  · simpa [List.isEmpty_iff] using hne
                  · exact (pickFirst_none_iff bound extra wf).mp hpick
                · intro _; rfl
              · rw [heq]; intro h; simp at h
              · intro prog ev h; rw [heq] at h; cases h
          | some pr =>
              obtain ⟨p, rest⟩ := pr
              have hperm := pickFirst_perm bound extra p rest hpick
              have wfr : ∀ q ∈ rest, q.args ≠ [] := fun q hq =>
                wf q (hperm.symm.mem_iff.mp (List.mem_cons_of_mem _ hq))
              have hlenr : rest.length = m := by
                have hpl := hperm.length_eq
                simp at hpl
                omega
              have heq : scheduleGo (m + 1) bound extra acc =
                  scheduleGo m (callCheckBound bound p).2 rest
                    (acc ++ [.call p.head p.args (callCheckBound bound p).1]) := by
                simp [scheduleGo, hne, hpick]
              obtain ⟨ih1, ih2, ih3⟩ := ih (callCheckBound bound p).2 rest
                (acc ++ [.call p.head p.args (callCheckBound bound p).1]) hlenr wfr
              refine ⟨?_, ?_, ?_⟩
              · rw [heq, ih1]
                constructor
                · rintro ⟨s', hr, hs⟩
                  exact ⟨s', SchedReaches.step hpick hr, hs⟩
                · rintro ⟨s', hr, hne', hsched⟩
                  cases hr with
                  | refl =>
                      obtain ⟨hsch, hmem⟩ := pickFirst_found bound extra p rest hpick
                      exact absurd (hsched p hmem) (by simp [hsch])
                  | step hpick' hr' =>
                      rw [hpick] at hpick'
                      simp only [Except.ok.injEq, Option.some.injEq,
                        Prod.mk.injEq] at hpick'
                      obtain ⟨h1, h2⟩ := hpick'
                      subst h1
                      subst h2
                      exact ⟨s', hr', hne', hsched⟩
              · rw [heq]; exact ih2
              · intro prog ev h
                rw [heq] at h
                obtain ⟨calls, hpr, hcalls, hperm2⟩ := ih3 prog ev h
                refine ⟨.call p.head p.args (callCheckBound bound p).1 :: calls, ?_, ?_, ?_⟩
                · simpa using hpr
                · intro c hc
                  rcases List.mem_cons.mp hc with h | h
                  · exact ⟨_, _, _, h⟩
                  · exact hcalls c h
                · have hm : (extra.map (fun q : PrimAtom => q.args)).Perm
                      (p.args :: rest.map (fun q : PrimAtom => q.args)) :=
                    hperm.map (fun q : PrimAtom => q.args)
                  exact (hperm2.cons p.args).trans hm.symm

/-- C5: compilation fails with `CyclicPrimitives` (the source's panic) iff
the scheduling loop reaches a state in which filters remain but none is
schedulable; the argument-nonempty assertion never fires on well-formed
filters; and on success the program is the intersections followed by one
`Call` per filter (a permutation of the filter list); a compile error
surfaces synchronously through `Context::new` and `run`. -/
theorem c5_cyclic_primitives :
    ∀ (g : EGraph) (q : Query) (layout : List Sym) (ranges : List TsRange),
      (∀ p ∈ q.filters, p.args ≠ []) →
      (compileProgram g q layout ranges = .error .cyclicPrimitives ↔
        ∃ s', SchedReaches ((phaseBSorted g q ranges).map (·.1), q.filters) s' ∧
          s'.2 ≠ [] ∧ ∀ p ∈ s'.2, schedulable s'.1 p = false) ∧
      (compileProgram g q layout ranges ≠ .error .emptyPrimArgs) ∧
      (∀ prog ev, compileProgram g q layout ranges = .ok (prog, ev) →
        ∃ calls, prog = ((phaseBSorted g q ranges).map
            (fun p => Instr.intersect (layout.findIdx (· == p.1)) p.2.1)) ++ calls ∧
          (∀ c ∈ calls, ∃ prim args check, c = Instr.call prim args check) ∧
          (calls.map instrArgs).Perm (q.filters.map (·.args))) ∧
      (∀ e, compileProgram g q q.layout ranges = .error e →
        contextNew g q ranges = .error e ∧ runSplit g q ranges = .error e) := by
  intro g q layout ranges wf
  obtain ⟨h1, h2, h3⟩ := scheduleGo_spec q.filters.length
    ((phaseBSorted g q ranges).map (·.1)) q.filters
    ((phaseBSorted g q ranges).map
      (fun p => Instr.intersect (layout.findIdx (· == p.1)) p.2.1)) rfl wf
  refine ⟨h1, h2, h3, ?_⟩
  intro e he
  constructor
  · simp [contextNew, he, Bind.bind, Except.bind]
  · simp [runSplit, contextNew, he, Bind.bind, Except.bind]

/-- Witness for C5 at the concrete cyclic example `c6Query`: scheduling is
stuck immediately, the error is `CyclicPrimitives`, and it propagates. -/
theorem c5_cyclic_primitives_witness :
    (compileProgram c6Graph c6Query c6Query.layout [(0, UMAX)] = .error .cyclicPrimitives ↔
      ∃ s', SchedReaches ((phaseBSorted c6Graph c6Query [(0, UMAX)]).map (·.1),
          c6Query.filters) s' ∧
        s'.2 ≠ [] ∧ ∀ p ∈ s'.2, schedulable s'.1 p = false) ∧
    (compileProgram c6Graph c6Query c6Query.layout [(0, UMAX)] ≠ .error .emptyPrimArgs) ∧
    (∀ prog ev, compileProgram c6Graph c6Query c6Query.layout [(0, UMAX)] = .ok (prog, ev) →
      ∃ calls, prog = ((phaseBSorted c6Graph c6Query [(0, UMAX)]).map
          (fun p => Instr.intersect (c6Query.layout.findIdx (· == p.1)) p.2.1)) ++ calls ∧
        (∀ c ∈ calls, ∃ prim args check, c = Instr.call prim args check) ∧
        (calls.map instrArgs).Perm (c6Query.filters.map (·.args))) ∧
    (∀ e, compileProgram c6Graph c6Query c6Query.layout [(0, UMAX)] = .error e →
      contextNew c6Graph c6Query [(0, UMAX)] = .error e ∧
      runSplit c6Graph c6Query [(0, UMAX)] = .error e) :=
  c5_cyclic_primitives c6Graph c6Query c6Query.layout [(0, UMAX)]
    (by
      intro p hp
      rcases List.mem_cons.mp hp with h | h
      · subst h; simp
      · rcases List.mem_cons.mp h with h2 | h2
        · subst h2; simp
        · cases h2)

end GJ
